import Mathlib

/-!
Shallow embedding of the `session` Go package (session entity, in-memory
store with expiration sweeper, cookie-based manager) and proofs about it.

Modelling conventions:
* `time.Time` and `time.Duration` are both `Int` (nanoseconds), so
  `now.Sub(accessed) > timeout` becomes `now - accessed > timeout` over `Int`.
* A Go `map[string]T` is an association list `List (String × T)` with
  Go-map semantics: `goSet` replaces in place or appends, `goDel` filters,
  `goGet` finds.  Keys of maps built by these operations are unique.
* A Go `interface{}` attribute value is `Option V` for an arbitrary type
  `V`: `none` is the `nil` interface value (storable in a map, and the
  zero value returned on a missing key).
* The `crypto/rand` reader is an explicit parameter: `randRead n` yields
  the bytes `io.ReadFull` managed to write into the `n`-byte zero buffer
  together with the error flag it returned.
* Mutation through pointers becomes explicit state passing: `Access`
  returns the updated session, `storeGet` returns the (possibly
  access-refreshed) map alongside the result.
-/

namespace SessionModel

/-- Go map lookup `m[k]` restricted to present keys: `some v` when `k` is a
key of the map, `none` when absent. -/
def goGet {β : Type} (m : List (String × β)) (k : String) : Option β :=
  (m.find? (fun p => p.1 == k)).map Prod.snd

/-- Go map assignment `m[k] = v`: replaces the value of an existing key,
otherwise appends a new entry. -/
def goSet {β : Type} (m : List (String × β)) (k : String) (v : β) :
    List (String × β) :=
  if m.any (fun p => p.1 == k) then
    m.map (fun p => if p.1 == k then (k, v) else p)
  else m ++ [(k, v)]

/-- Go map deletion `delete(m, k)`. -/
def goDel {β : Type} (m : List (String × β)) (k : String) :
    List (String × β) :=
  m.filter (fun p => !(p.1 == k))

/-- The `sessionImpl` struct of the source (minus the mutex, which the
pure model does not need): id, creation and last-access times, constant
attributes, mutable attributes, timeout.  Attribute values are `Option V`
because a Go `interface{}` value may be `nil`. -/
structure SessionImpl (V : Type) where
  IDF : String
  CreatedF : Int
  AccessedF : Int
  CAttrsF : List (String × Option V)
  AttrsF : List (String × Option V)
  TimeoutF : Int
deriving Repr, DecidableEq

/-- The `SessOptions` struct: options for `NewSessionOptions`, all
defaultable. -/
structure SessOptions (V : Type) where
  CAttrs : List (String × Option V) := []
  Attrs : List (String × Option V) := []
  Timeout : Int := 0
  IDLength : Int := 0
deriving Repr

/-- The URL-safe base64 alphabet used by `base64.URLEncoding`. -/
def base64urlAlphabet : List Char :=
  "ABCDEFGHIJKLMNOPQRSTUVWXYZabcdefghijklmnopqrstuvwxyz0123456789-_".toList

/-- Character of the URL-safe base64 alphabet at a 6-bit index. -/
def b64Char (n : Nat) : Char := base64urlAlphabet.getD n 'A'

/-- `base64.URLEncoding.EncodeToString`: standard base64 over the URL-safe
alphabet, `=`-padded. -/
def base64urlEncode : List Nat → List Char
  | b0 :: b1 :: b2 :: rest =>
      b64Char (b0 / 4) :: b64Char (b0 % 4 * 16 + b1 / 16) ::
      b64Char (b1 % 16 * 4 + b2 / 64) :: b64Char (b2 % 64) ::
      base64urlEncode rest
  | [b0, b1] =>
      [b64Char (b0 / 4), b64Char (b0 % 4 * 16 + b1 / 16),
       b64Char (b1 % 16 * 4), '=']
  | [b0] => [b64Char (b0 / 4), b64Char (b0 % 4 * 16), '=', '=']
  | [] => []

/-- A model of the outcome of `io.ReadFull(rand.Reader, r)` on an `n`-byte
buffer: the bytes actually written (a prefix of the buffer) and whether an
error was returned. -/
abbrev RandSource : Type := Nat → List Nat × Bool

/-- `genID` of the source: allocate an all-zero buffer of `length` bytes,
call `io.ReadFull(rand.Reader, r)` — whose error result the source
discards — and base64-URL-encode the buffer.  On a short or failed read
the unwritten suffix of the buffer stays zero. -/
def genID (randRead : RandSource) (length : Nat) : String :=
  let written := (randRead length).1.take length
  let r := written ++ List.replicate (length - written.length) 0
  String.mk (base64urlEncode r)

/-- `NewSessionOptions` of the source: defaults `IDLength` to 18 and
`Timeout` to 30 minutes, generates the id, sets `created = accessed = now`,
copies the constant attributes when non-empty, and copies every supplied
initial attribute entry (nil-valued or not) into the fresh attribute map. -/
def NewSessionOptions {V : Type} (randRead : RandSource) (now : Int)
    (o : SessOptions V) : SessionImpl V :=
  let idLength := if o.IDLength ≤ 0 then 18 else o.IDLength
  let timeout := if o.Timeout = 0 then 30 * 60 * 1000000000 else o.Timeout
  let cattrs :=
    if 0 < o.CAttrs.length then
      o.CAttrs.foldl (fun m kv => goSet m kv.1 kv.2) []
    else []
  { IDF := genID randRead idLength.toNat
    CreatedF := now
    AccessedF := now
    CAttrsF := cattrs
    AttrsF := o.Attrs.foldl (fun m kv => goSet m kv.1 kv.2) []
    TimeoutF := timeout }

/-- `Session.ID()`. -/
def ID {V : Type} (s : SessionImpl V) : String := s.IDF

/-- `Session.New()`: created and accessed times are equal. -/
def New {V : Type} (s : SessionImpl V) : Bool := s.CreatedF == s.AccessedF

/-- `Session.CAttr(name)`: Go map indexing returns the zero value (`nil`,
here `none`) on a missing key. -/
def CAttr {V : Type} (s : SessionImpl V) (name : String) : Option V :=
  (goGet s.CAttrsF name).join

/-- `Session.Attr(name)`: Go map indexing returns `nil` on a missing key. -/
def Attr {V : Type} (s : SessionImpl V) (name : String) : Option V :=
  (goGet s.AttrsF name).join

/-- `Session.SetAttr(name, value)`: a `nil` value deletes the name,
otherwise the value is stored. -/
def SetAttr {V : Type} (s : SessionImpl V) (name : String)
    (value : Option V) : SessionImpl V :=
  match value with
  | none => { s with AttrsF := goDel s.AttrsF name }
  | some v => { s with AttrsF := goSet s.AttrsF name (some v) }

/-- `Session.Attrs()`: a copy of the attribute map (in the pure model the
copy is the value itself). -/
def Attrs {V : Type} (s : SessionImpl V) : List (String × Option V) :=
  s.AttrsF

/-- `Session.Access()`: sets the last-accessed time to the current time. -/
def Access {V : Type} (s : SessionImpl V) (now : Int) : SessionImpl V :=
  { s with AccessedF := now }

/-- The `sessions` map of `inMemStore`: id keys to sessions. -/
abbrev StoreMap (V : Type) : Type := List (String × SessionImpl V)

/-- `inMemStore.Get(id)`: looks up `id`; on a miss returns `nil` with the
map untouched, on a hit calls `Access` on the stored session before
returning it.  The session lives in the map, so refreshing its access time
updates the map entry too (in Go the map holds a pointer). -/
def storeGet {V : Type} (m : StoreMap V) (id : String) (now : Int) :
    Option (SessionImpl V) × StoreMap V :=
  match goGet m id with
  | none => (none, m)
  | some sess =>
      let sess2 := Access sess now
      (some sess2, goSet m id sess2)

/-- `inMemStore.Add(sess)`: inserts the session keyed by its own id,
silently overwriting any previous entry of that id. -/
def storeAdd {V : Type} (m : StoreMap V) (sess : SessionImpl V) :
    StoreMap V :=
  goSet m (ID sess) sess

/-- `inMemStore.Remove(sess)`: deletes the map entry keyed `sess.ID()`;
deleting an absent key is a no-op. -/
def storeRemove {V : Type} (m : StoreMap V) (sess : SessionImpl V) :
    StoreMap V :=
  goDel m (ID sess)

/-- The timeout predicate of the sweeper: `now.Sub(sess.Accessed()) >
sess.Timeout()`. -/
def expired {V : Type} (now : Int) (sess : SessionImpl V) : Bool :=
  decide (now - sess.AccessedF > sess.TimeoutF)

/-- One tick of `sessCleaner` at the instant `now` received from the
ticker: first an optimistic scan asking whether any session has timed out;
only if so, a rescan that deletes, for each timed-out session encountered,
the map entry keyed by that session's id.  The single `now` is used by
both scans. -/
def sessTick {V : Type} (m : StoreMap V) (now : Int) : StoreMap V :=
  let needRemove := m.any (fun p => expired now p.2)
  if needRemove then
    m.foldl (fun acc p => if expired now p.2 then goDel acc (ID p.2) else acc) m
  else m

/-- The store states reachable by the public API, as sequences of
operations applied to the empty store of a fresh `inMemStore`. -/
inductive StoreOp (V : Type) where
  | add (s : SessionImpl V)
  | remove (s : SessionImpl V)
  | get (id : String) (now : Int)
  | tick (now : Int)

/-- Apply one public store operation to the map state. -/
def applyOp {V : Type} (m : StoreMap V) : StoreOp V → StoreMap V
  | .add s => storeAdd m s
  | .remove s => storeRemove m s
  | .get id now => (storeGet m id now).2
  | .tick now => sessTick m now

/-- Run a sequence of public store operations from the empty store. -/
def runOps {V : Type} (ops : List (StoreOp V)) : StoreMap V :=
  ops.foldl applyOp []

/-- Every map entry's session carries the entry's key as its id
(the store invariant of the spec). -/
abbrev WellKeyed {V : Type} (m : StoreMap V) : Prop :=
  ∀ p ∈ m, p.1 = p.2.IDF

/-- The association list has no duplicate keys (always true of lists built
by the Go-map operations). -/
abbrev NodupKeys {β : Type} (m : List (String × β)) : Prop :=
  (m.map Prod.fst).Nodup

/-- The `http.Cookie` fields the manager sets. -/
structure HttpCookie where
  Name : String
  Value : String
  Path : String
  HttpOnly : Bool
  Secure : Bool
  MaxAge : Int
deriving Repr, DecidableEq

/-- The `CookieMngrOptions` struct, all fields defaultable. -/
structure CookieMngrOptions where
  SessIDCookieName : String := ""
  AllowHTTP : Bool := false
  CookieMaxAge : Int := 0
  CookiePath : String := ""
deriving Repr

/-- The configuration part of the `CookieManager` struct (its backing
store is passed explicitly to the operations). -/
structure CookieManager where
  sessIDCookieName : String
  cookieSecure : Bool
  cookieMaxAgeSec : Int
  cookiePath : String
deriving Repr, DecidableEq

/-- `int(d.Seconds())` for a `time.Duration` `d` in nanoseconds: Go
converts the float64 second count to `int` by truncation toward zero,
which for the durations at issue (well below 2^52 ns, where the float64
arithmetic of `Duration.Seconds` is exact enough not to move the integer
part) is integer division truncated toward zero. -/
def durationSecondsTrunc (d : Int) : Int := Int.tdiv d 1000000000

/-- `NewCookieManagerOptions`: records the options, defaulting the cookie
name to "sessid", the max age to 30 days (in seconds), the path to "/";
the secure flag is the negation of `AllowHTTP`; a non-zero `CookieMaxAge`
is converted to whole seconds by truncation. -/
def NewCookieManagerOptions (o : CookieMngrOptions) : CookieManager :=
  { sessIDCookieName :=
      if o.SessIDCookieName = "" then "sessid" else o.SessIDCookieName
    cookieSecure := !o.AllowHTTP
    cookieMaxAgeSec :=
      if o.CookieMaxAge = 0 then 30 * 24 * 60 * 60
      else durationSecondsTrunc o.CookieMaxAge
    cookiePath := if o.CookiePath = "" then "/" else o.CookiePath }

/-- `CookieManager.Add(sess, w)`: writes the session-id cookie (value
`sess.ID()`, the manager's name/path, `HttpOnly` always true, `Secure`
from the configuration, the configured max age) and then delegates to
`store.Add(sess)`. -/
def managerAdd {V : Type} (mgr : CookieManager) (sess : SessionImpl V)
    (store : StoreMap V) : HttpCookie × StoreMap V :=
  ({ Name := mgr.sessIDCookieName
     Value := ID sess
     Path := mgr.cookiePath
     HttpOnly := true
     Secure := mgr.cookieSecure
     MaxAge := mgr.cookieMaxAgeSec },
   storeAdd store sess)

/-- Apply a sequence of `SetAttr` calls (name, value) to a session. -/
def applySetAttrs {V : Type} (s : SessionImpl V) :
    List (String × Option V) → SessionImpl V :=
  List.foldl (fun t kv => SetAttr t kv.1 kv.2) s

/-- An attribute map holds no `nil`-valued entry. -/
abbrev NilFree {V : Type} (m : List (String × Option V)) : Prop :=
  ∀ p ∈ m, p.2 ≠ none

/-- A concrete session value used to evaluate the model on small inputs. -/
def sampleSess (id : String) (acc tmo : Int) : SessionImpl Nat :=
  { IDF := id
    CreatedF := 0
    AccessedF := acc
    CAttrsF := []
    AttrsF := []
    TimeoutF := tmo }

/-- A concrete two-session store: "a" last accessed at 0, "b" at 90, both
with timeout 50. -/
def sampleStore : StoreMap Nat :=
  [("a", sampleSess "a" 0 50), ("b", sampleSess "b" 90 50)]

/-- A model of `io.ReadFull` failing outright: zero bytes written, error
returned. -/
def failingRand : RandSource := fun _ => ([], true)

/-- A healthy random source: fills the whole buffer (with bytes
1, 2, ..., n here) and reports no error. -/
def okRand : RandSource := fun n => ((List.range n).map (fun i => i + 1), false)

end SessionModel

namespace SessionModel

theorem goGet_goSet_self {β : Type} (m : List (String × β)) (k : String)
    (v : β) : goGet (goSet m k v) k = some v := by
  unfold goGet goSet
  by_cases h : m.any (fun p => p.1 == k) = true
  · rw [if_pos h, List.find?_map]
    have hpred :
        ((fun p : String × β => p.1 == k) ∘
          fun p => if p.1 == k then (k, v) else p) =
        fun p : String × β => p.1 == k := by
      funext p
      by_cases hp : p.1 == k
      · have hpk : p.1 = k := by simpa using hp
        simp [hpk]
      · have hpk : p.1 ≠ k := by simpa using hp
        simp [hpk]
    rw [hpred]
    rcases List.any_eq_true.mp h with ⟨q, hq, hqk⟩
    have hsome : (List.find? (fun p : String × β => p.1 == k) m).isSome := by
      rw [List.find?_isSome]
      exact ⟨q, hq, hqk⟩
    rcases Option.isSome_iff_exists.mp hsome with ⟨r, hr⟩
    have hrk : (r.1 == k) = true :=
      @List.find?_some _ (fun p : String × β => p.1 == k) r m hr
    have hrk2 : r.1 = k := by simpa using hrk
    rw [hr]
    simp [hrk2]
  · rw [if_neg h, List.find?_append]
    have hnone : List.find? (fun p : String × β => p.1 == k) m = none := by
      rw [List.find?_eq_none]
      intro p hp
      exact fun hk => h (List.any_eq_true.mpr ⟨p, hp, hk⟩)
    rw [hnone]
    simp

theorem goGet_goSet_ne {β : Type} (m : List (String × β)) (k k' : String)
    (v : β) (hne : k' ≠ k) : goGet (goSet m k v) k' = goGet m k' := by
  unfold goGet goSet
  by_cases h : m.any (fun p => p.1 == k) = true
  · rw [if_pos h, List.find?_map]
    have hpred :
        ((fun p : String × β => p.1 == k') ∘
          fun p => if p.1 == k then (k, v) else p) =
        fun p : String × β => p.1 == k' := by
      funext p
      by_cases hp : p.1 == k
      · have hpk : p.1 = k := by simpa using hp
        simp [hpk, Ne.symm hne]
      · have hpk : p.1 ≠ k := by simpa using hp
        simp [hpk]
    rw [hpred]
    cases hfind : List.find? (fun p : String × β => p.1 == k') m with
    | none => simp
    | some r =>
      have hrk : (r.1 == k') = true :=
        @List.find?_some _ (fun p : String × β => p.1 == k') r m hfind
      have hrk' : r.1 = k' := by simpa using hrk
      have hrnk : r.1 ≠ k := by simp [hrk', hne]
      simp [hrnk]
  · rw [if_neg h, List.find?_append]
    have hone : List.find? (fun p : String × β => p.1 == k') [(k, v)] = none := by
      simp [List.find?_cons, Ne.symm hne]
    rw [hone]
    simp

theorem goGet_goDel_self {β : Type} (m : List (String × β)) (k : String) :
    goGet (goDel m k) k = none := by
  unfold goGet goDel
  rw [Option.map_eq_none', List.find?_eq_none]
  intro p hp
  have := List.of_mem_filter hp
  simpa using this

theorem goGet_goDel_ne {β : Type} (m : List (String × β)) (k k' : String)
    (hne : k' ≠ k) : goGet (goDel m k) k' = goGet m k' := by
  unfold goGet goDel
  congr 1
  induction m with
  | nil => rfl
  | cons a t ih =>
    by_cases ha : a.1 == k
    · have hak : a.1 = k := by simpa using ha
      have ha' : ¬ (a.1 == k') = true := by simp [hak, Ne.symm hne]
      simp [List.filter_cons, ha, List.find?_cons, ha', ih]
    · by_cases ha' : a.1 == k'
      · simp [List.filter_cons, ha, List.find?_cons, ha']
      · simp [List.filter_cons, ha, List.find?_cons, ha', ih]

theorem goDel_idem {β : Type} (m : List (String × β)) (k : String) :
    goDel (goDel m k) k = goDel m k := by
  unfold goDel
  rw [List.filter_filter]
  exact List.filter_congr (fun p _ => by cases h : p.1 == k <;> simp [h])

theorem goDel_eq_self {β : Type} (m : List (String × β)) (k : String)
    (h : goGet m k = none) : goDel m k = m := by
  unfold goGet at h
  rw [Option.map_eq_none'] at h
  have hall := List.find?_eq_none.mp h
  unfold goDel
  rw [List.filter_eq_self]
  intro p hp
  simpa using hall p hp

theorem keys_goSet_of_mem {β : Type} (m : List (String × β)) (k : String)
    (v : β) (h : m.any (fun p => p.1 == k) = true) :
    (goSet m k v).map Prod.fst = m.map Prod.fst := by
  unfold goSet
  rw [if_pos h, List.map_map]
  refine List.map_congr_left (fun p _ => ?_)
  by_cases hp : p.1 == k
  · have hpk : p.1 = k := by simpa using hp
    simp [hpk]
  · have hpk : p.1 ≠ k := by simpa using hp
    simp [hpk]

theorem mem_goSet {β : Type} (m : List (String × β)) (k : String) (v : β)
    (q : String × β) (hq : q ∈ goSet m k v) : q = (k, v) ∨ q ∈ m := by
  unfold goSet at hq
  by_cases h : m.any (fun p => p.1 == k) = true
  · rw [if_pos h] at hq
    rcases List.mem_map.mp hq with ⟨p, hp, hpq⟩
    by_cases hpk : p.1 == k
    · left
      rw [← hpq]
      simp [hpk]
    · right
      rw [← hpq]
      simpa [hpk] using hp
  · rw [if_neg h] at hq
    rcases List.mem_append.mp hq with hq | hq
    · right
      exact hq
    · left
      simpa using hq

theorem mem_goDel {β : Type} (m : List (String × β)) (k : String)
    (q : String × β) (hq : q ∈ goDel m k) : q ∈ m :=
  (List.mem_filter.mp hq).1

theorem nodupKeys_goSet {β : Type} (m : List (String × β)) (k : String)
    (v : β) (h : NodupKeys m) : NodupKeys (goSet m k v) := by
  unfold NodupKeys goSet
  by_cases hany : m.any (fun p => p.1 == k) = true
  · rw [if_pos hany]
    have hkeys : (m.map (fun p => if p.1 == k then (k, v) else p)).map Prod.fst
        = m.map Prod.fst := by
      rw [List.map_map]
      refine List.map_congr_left (fun p _ => ?_)
      by_cases hp : p.1 == k
      · have hpk : p.1 = k := by simpa using hp
        simp [hpk]
      · have hpk : p.1 ≠ k := by simpa using hp
        simp [hpk]
    rw [hkeys]
    exact h
  · rw [if_neg hany, List.map_append]
    have hk : ∀ x ∈ m.map Prod.fst, x ≠ k := by
      intro x hx
      rcases List.mem_map.mp hx with ⟨p, hp, hpx⟩
      intro hxk
      exact hany (List.any_eq_true.mpr ⟨p, hp, by simp [hpx, hxk]⟩)
    simp only [List.map_cons, List.map_nil]
    rw [List.nodup_append]
    exact ⟨h, List.nodup_singleton k, fun x hx hxk =>
      hk x hx (List.mem_singleton.mp hxk)⟩

theorem nodupKeys_goDel {β : Type} (m : List (String × β)) (k : String)
    (h : NodupKeys m) : NodupKeys (goDel m k) := by
  unfold NodupKeys goDel
  exact List.Nodup.sublist (List.Sublist.map Prod.fst (List.filter_sublist m)) h

theorem nodupKeys_inj {β : Type} (m : List (String × β)) (h : NodupKeys m)
    (p q : String × β) (hp : p ∈ m) (hq : q ∈ m) (hk : p.1 = q.1) : p = q :=
  List.inj_on_of_nodup_map h hp hq hk

theorem goGet_eq_some_iff_mem {β : Type} (m : List (String × β))
    (h : NodupKeys m) (k : String) (v : β) :
    goGet m k = some v ↔ (k, v) ∈ m := by
  constructor
  · intro hg
    unfold goGet at hg
    cases hfind : m.find? (fun p => p.1 == k) with
    | none => rw [hfind] at hg; simp at hg
    | some r =>
      rw [hfind] at hg
      have hrk : (r.1 == k) = true :=
        @List.find?_some _ (fun p : String × β => p.1 == k) r m hfind
      have hrk' : r.1 = k := by simpa using hrk
      have hrm : r ∈ m := List.mem_of_find?_eq_some hfind
      have hrv : r.2 = v := by simpa using hg
      have : r = (k, v) := by
        cases r
        simp only [Prod.mk.injEq]
        exact ⟨hrk', hrv⟩
      rw [← this]
      exact hrm
  · intro hmem
    unfold goGet
    cases hfind : m.find? (fun p => p.1 == k) with
    | none =>
      have := List.find?_eq_none.mp hfind (k, v) hmem
      simp at this
    | some r =>
      have hrk : (r.1 == k) = true :=
        @List.find?_some _ (fun p : String × β => p.1 == k) r m hfind
      have hrk' : r.1 = k := by simpa using hrk
      have hrm : r ∈ m := List.mem_of_find?_eq_some hfind
      have : r = (k, v) := nodupKeys_inj m h r (k, v) hrm hmem (by simp [hrk'])
      simp [this]

theorem beq_comm_str (a b : String) : (a == b) = (b == a) := by
  by_cases h : a = b
  · rw [h]
  · have h' : b ≠ a := Ne.symm h
    simp [h, h']

theorem goGet_any {β : Type} (m : List (String × β)) (k : String) (v : β)
    (h : goGet m k = some v) : m.any (fun p => p.1 == k) = true := by
  unfold goGet at h
  cases hfind : m.find? (fun p => p.1 == k) with
  | none => rw [hfind] at h; simp at h
  | some r =>
    exact List.any_eq_true.mpr ⟨r, List.mem_of_find?_eq_some hfind,
      @List.find?_some _ (fun p : String × β => p.1 == k) r m hfind⟩

theorem goGet_filter {β : Type} (m : List (String × β)) (h : NodupKeys m)
    (pred : String × β → Bool) (k : String) (v : β)
    (hmem : (k, v) ∈ m) (hkeep : pred (k, v) = true) :
    goGet (m.filter pred) k = some v := by
  have hnodup : NodupKeys (m.filter pred) := by
    unfold NodupKeys
    exact List.Nodup.sublist (List.Sublist.map Prod.fst (List.filter_sublist m)) h
  exact (goGet_eq_some_iff_mem _ hnodup k v).mpr
    (List.mem_filter.mpr ⟨hmem, hkeep⟩)

theorem foldDel_eq_filter {V : Type} (now : Int)
    (L : List (String × SessionImpl V)) (m : StoreMap V) :
    L.foldl (fun acc p => if expired now p.2 then goDel acc (ID p.2) else acc) m
      = m.filter
          (fun q => ! L.any (fun p => expired now p.2 && (ID p.2 == q.1))) := by
  induction L generalizing m with
  | nil => simp
  | cons p L ih =>
    simp only [List.foldl_cons]
    by_cases hp : expired now p.2 = true
    · rw [if_pos hp, ih]
      unfold goDel
      rw [List.filter_filter]
      refine List.filter_congr (fun q _ => ?_)
      simp only [List.any_cons, hp, Bool.true_and, Bool.not_or]
      rw [beq_comm_str q.1 (ID p.2), Bool.and_comm]
    · rw [if_neg hp, ih]
      refine List.filter_congr (fun q _ => ?_)
      have hp' : expired now p.2 = false := by simpa using hp
      simp only [List.any_cons, hp', Bool.false_and, Bool.false_or]

theorem sessTick_eq_filter {V : Type} (m : StoreMap V) (now : Int)
    (hW : WellKeyed m) (hN : NodupKeys m) :
    sessTick m now = m.filter (fun p => ! expired now p.2) := by
  unfold sessTick
  by_cases h : m.any (fun p => expired now p.2) = true
  · simp only [h, if_true, foldDel_eq_filter]
    refine List.filter_congr (fun q hq => ?_)
    congr 1
    by_cases he : expired now q.2 = true
    · rw [he]
      refine List.any_eq_true.mpr ⟨q, hq, ?_⟩
      rw [he, Bool.true_and]
      have := hW q hq
      simp [ID, ← this]
    · have he' : expired now q.2 = false := by simpa using he
      rw [he', List.any_eq_false]
      intro p hpm
      rw [Bool.not_eq_true, Bool.and_eq_false_iff]
      by_cases hpe : expired now p.2 = true
      · right
        have hkq : p.1 = p.2.IDF := hW p hpm
        by_cases hid : ID p.2 = q.1
        · exfalso
          have hpq : p = q :=
            nodupKeys_inj m hN p q hpm hq (by rw [hkq]; exact hid)
          rw [hpq] at hpe
          exact absurd hpe (by simp [he'])
        · simpa using hid
      · left
        simpa using hpe
  · rw [if_neg h]
    refine Eq.symm (List.filter_eq_self.mpr (fun p hp => ?_))
    have hfalse : m.any (fun r => expired now r.2) = false := by
      simpa using h
    have hpf : expired now p.2 = false := by
      have := List.any_eq_false.mp hfalse p hp
      simpa using this
    rw [hpf]
    rfl

theorem mem_sessTick {V : Type} (m : StoreMap V) (now : Int)
    (q : String × SessionImpl V) (hq : q ∈ sessTick m now) : q ∈ m := by
  unfold sessTick at hq
  by_cases h : m.any (fun p => expired now p.2) = true
  · rw [if_pos h, foldDel_eq_filter] at hq
    exact (List.mem_filter.mp hq).1
  · rwa [if_neg h] at hq

theorem wellKeyed_goGet {V : Type} (m : StoreMap V) (hW : WellKeyed m)
    (id : String) (sess : SessionImpl V) (h : goGet m id = some sess) :
    sess.IDF = id := by
  unfold goGet at h
  cases hfind : m.find? (fun p => p.1 == id) with
  | none => rw [hfind] at h; simp at h
  | some r =>
    rw [hfind] at h
    have hrk : (r.1 == id) = true :=
      @List.find?_some _ (fun p : String × SessionImpl V => p.1 == id) r m hfind
    have hrk' : r.1 = id := by simpa using hrk
    have hrm : r ∈ m := List.mem_of_find?_eq_some hfind
    have hrv : r.2 = sess := by simpa using h
    rw [← hrv, ← hW r hrm, hrk']

theorem wellKeyed_goSet {V : Type} (m : StoreMap V) (k : String)
    (sess : SessionImpl V) (hW : WellKeyed m) (hid : sess.IDF = k) :
    WellKeyed (goSet m k sess) := by
  intro q hq
  rcases mem_goSet m k sess q hq with hq | hq
  · rw [hq, hid]
  · exact hW q hq

theorem wellKeyed_applyOp {V : Type} (m : StoreMap V) (op : StoreOp V)
    (hW : WellKeyed m) : WellKeyed (applyOp m op) := by
  cases op with
  | add s => exact wellKeyed_goSet m (ID s) s hW rfl
  | remove s => exact fun q hq => hW q (mem_goDel m (ID s) q hq)
  | get id now =>
    show WellKeyed (storeGet m id now).2
    unfold storeGet
    cases hg : goGet m id with
    | none => exact hW
    | some sess =>
      have hsid : sess.IDF = id := wellKeyed_goGet m hW id sess hg
      exact wellKeyed_goSet m id (Access sess now) hW hsid
  | tick now => exact fun q hq => hW q (mem_sessTick m now q hq)

theorem wellKeyed_runOps {V : Type} (ops : List (StoreOp V)) :
    WellKeyed (runOps ops) := by
  unfold runOps
  have hfold : ∀ (l : List (StoreOp V)) (m : StoreMap V), WellKeyed m →
      WellKeyed (l.foldl applyOp m) := by
    intro l
    induction l with
    | nil => exact fun m h => h
    | cons op l ih =>
      intro m h
      exact ih (applyOp m op) (wellKeyed_applyOp m op h)
  exact hfold ops [] (fun q hq => absurd hq (List.not_mem_nil q))

theorem attr_setAttr_ne {V : Type} (t : SessionImpl V) (n name : String)
    (w : Option V) (hne : n ≠ name) :
    Attr (SetAttr t n w) name = Attr t name := by
  cases w with
  | none =>
    show (goGet (goDel t.AttrsF n) name).join = (goGet t.AttrsF name).join
    rw [goGet_goDel_ne t.AttrsF n name (Ne.symm hne)]
  | some w' =>
    show (goGet (goSet t.AttrsF n (some w')) name).join
      = (goGet t.AttrsF name).join
    rw [goGet_goSet_ne t.AttrsF n name (some w') (Ne.symm hne)]

theorem attr_applySetAttrs_ne {V : Type} (t : SessionImpl V)
    (ops : List (String × Option V)) (name : String)
    (hops : ∀ p ∈ ops, p.1 ≠ name) :
    Attr (applySetAttrs t ops) name = Attr t name := by
  induction ops generalizing t with
  | nil => rfl
  | cons p ops ih =>
    have hstep : applySetAttrs t (p :: ops)
        = applySetAttrs (SetAttr t p.1 p.2) ops := rfl
    rw [hstep, ih (SetAttr t p.1 p.2)
      (fun q hq => hops q (List.mem_cons_of_mem p hq))]
    exact attr_setAttr_ne t p.1 name p.2 (hops p (List.mem_cons_self p ops))

theorem not_mem_keys_goDel {β : Type} (m : List (String × β)) (k : String) :
    ¬ k ∈ (goDel m k).map Prod.fst := by
  intro hk
  rcases List.mem_map.mp hk with ⟨p, hp, hpk⟩
  have hkeep := List.of_mem_filter hp
  rw [hpk] at hkeep
  simp at hkeep

theorem exists_key_of_goGet_some {β : Type} (m : List (String × β))
    (k : String) (v : β) (h : goGet m k = some v) : ∃ p ∈ m, p.1 = k := by
  unfold goGet at h
  cases hfind : m.find? (fun p => p.1 == k) with
  | none => rw [hfind] at h; simp at h
  | some r =>
    have hrk : (r.1 == k) = true :=
      @List.find?_some _ (fun p : String × β => p.1 == k) r m hfind
    exact ⟨r, List.mem_of_find?_eq_some hfind, by simpa using hrk⟩

theorem nilFree_goSet {V : Type} (m : List (String × Option V)) (k : String)
    (v : Option V) (h : NilFree m) (hv : v ≠ none) : NilFree (goSet m k v) := by
  intro q hq
  rcases mem_goSet m k v q hq with hq | hq
  · rw [hq]
    exact hv
  · exact h q hq

theorem nilFree_setAttr {V : Type} (s : SessionImpl V) (name : String)
    (value : Option V) (h : NilFree s.AttrsF) :
    NilFree (SetAttr s name value).AttrsF := by
  cases value with
  | none =>
    intro q hq
    exact h q (mem_goDel s.AttrsF name q hq)
  | some v =>
    exact nilFree_goSet s.AttrsF name (some v) h (by simp)

theorem nilFree_applySetAttrs {V : Type} (s : SessionImpl V)
    (ops : List (String × Option V)) (h : NilFree s.AttrsF) :
    NilFree (applySetAttrs s ops).AttrsF := by
  induction ops generalizing s with
  | nil => exact h
  | cons p ops ih =>
    have hstep : applySetAttrs s (p :: ops)
        = applySetAttrs (SetAttr s p.1 p.2) ops := rfl
    rw [hstep]
    exact ih (SetAttr s p.1 p.2) (nilFree_setAttr s p.1 p.2 h)

theorem nilFree_fold_goSet {V : Type} (l : List (String × Option V))
    (acc : List (String × Option V)) (hacc : NilFree acc) (hl : NilFree l) :
    NilFree (l.foldl (fun m kv => goSet m kv.1 kv.2) acc) := by
  induction l generalizing acc with
  | nil => exact hacc
  | cons p l ih =>
    simp only [List.foldl_cons]
    exact ih (goSet acc p.1 p.2)
      (nilFree_goSet acc p.1 p.2 hacc (hl p (List.mem_cons_self p l)))
      (fun q hq => hl q (List.mem_cons_of_mem p hq))

/-- C1: the code, not the spec, is at fault here.  When the cryptographic
random source fails outright (zero bytes written, error returned),
`genID` discards the `io.ReadFull` error and encodes the untouched
all-zero buffer, and `NewSessionOptions` silently returns a session whose
default-length id is the 24-character encoding of 18 zero bytes, instead
of failing the construction call. -/
theorem c1_rand_failure_silently_ignored :
    genID failingRand 18 = "AAAAAAAAAAAAAAAAAAAAAAAA"
    ∧ (NewSessionOptions failingRand 0 ({} : SessOptions Nat)).IDF
        = "AAAAAAAAAAAAAAAAAAAAAAAA" := by
  exact ⟨rfl, rfl⟩

/-- C2 counterexample: construction is a public operation that does
introduce a `nil`-valued entry: `NewSessionOptions` copies the supplied
initial attributes verbatim, so passing `Attrs = [("a", nil)]` yields a
session whose mutable attribute map maps "a" to the nil value. -/
theorem c2_counterexample_construction_copies_nil :
    ("a", (none : Option Nat)) ∈
      (NewSessionOptions okRand 0
        ({ Attrs := [("a", none)] } : SessOptions Nat)).AttrsF := by
  decide

/-- C2 amended: `SetAttr` with a nil value removes the name entirely and
`SetAttr` never introduces a nil-valued entry, so a session whose
attribute map is nil-free stays nil-free under every sequence of
`SetAttr`/`Attr`/`Attrs` operations; and construction yields a nil-free
map whenever the caller-supplied initial attributes are nil-free (the
caller can, however, seed a nil-valued entry through construction). -/
theorem c2_setattr_preserves_nil_freedom {V : Type} :
    (∀ (s : SessionImpl V) (name : String),
      Attr (SetAttr s name none) name = none
      ∧ ¬ name ∈ (SetAttr s name none).AttrsF.map Prod.fst)
    ∧ (∀ (s : SessionImpl V) (ops : List (String × Option V)),
      NilFree s.AttrsF → NilFree (applySetAttrs s ops).AttrsF)
    ∧ (∀ (randRead : RandSource) (now : Int) (o : SessOptions V),
      NilFree o.Attrs → NilFree (NewSessionOptions randRead now o).AttrsF) := by
  refine ⟨fun s name => ⟨?_, ?_⟩, fun s ops h => nilFree_applySetAttrs s ops h,
    fun randRead now o h => ?_⟩
  · show (goGet (goDel s.AttrsF name) name).join = none
    rw [goGet_goDel_self]
    rfl
  · exact not_mem_keys_goDel s.AttrsF name
  · exact nilFree_fold_goSet o.Attrs [] (fun q hq => absurd hq (List.not_mem_nil q)) h

/-- C2 witness: the amended theorem applied to a concrete construction
with a nil-free initial attribute map followed by concrete `SetAttr`
calls, including a nil-valued one. -/
theorem c2_setattr_preserves_nil_freedom_witness :
    NilFree (applySetAttrs
      (NewSessionOptions okRand 0
        ({ Attrs := [("a", some 2)] } : SessOptions Nat))
      [("b", some 3), ("a", none)]).AttrsF := by
  refine (c2_setattr_preserves_nil_freedom.2.1 _ _ ?_)
  exact c2_setattr_preserves_nil_freedom.2.2 okRand 0
    ({ Attrs := [("a", some 2)] } : SessOptions Nat) (by decide)

/-- C3: a sweeper tick at the instant `now`, on a store whose map is
well-keyed with unique keys, removes exactly the entries whose sessions
satisfy `now - accessed > timeout` and retains all others; the single
`now` of the tick is what both the read-scan and the delete-rescan
evaluate, which the filter characterization over that one `now`
expresses. -/
theorem c3_tick_removes_exactly_expired {V : Type} (m : StoreMap V)
    (now : Int) (hW : WellKeyed m) (hN : NodupKeys m) :
    sessTick m now = m.filter (fun p => ! expired now p.2)
    ∧ ∀ p ∈ m, (p ∈ sessTick m now
        ↔ ¬ (now - p.2.AccessedF > p.2.TimeoutF)) := by
  have hfilter := sessTick_eq_filter m now hW hN
  refine ⟨hfilter, fun p hp => ?_⟩
  rw [hfilter, List.mem_filter]
  constructor
  · rintro ⟨-, hkeep⟩
    intro hgt
    rw [show expired now p.2 = true from by simp [expired, hgt]] at hkeep
    simp at hkeep
  · intro hngt
    refine ⟨hp, ?_⟩
    rw [show expired now p.2 = false from by simp [expired, hngt]]
    rfl

/-- C3 witness: the tick theorem applied to the concrete two-session
store at instant 100, where "a" (accessed 0, timeout 50) is expired and
"b" (accessed 90, timeout 50) is not. -/
theorem c3_tick_removes_exactly_expired_witness :
    sessTick sampleStore 100
      = List.filter (fun p => ! expired 100 p.2) sampleStore :=
  (c3_tick_removes_exactly_expired sampleStore 100 (by decide) (by decide)).1

/-- C4: `Get` returns the stored session (access-refreshed) when the id
is a key of the map and `nil` otherwise; on a hit the returned session
has its accessed time set to the current instant; in both cases the key
set of the map is unchanged, so `Get` neither creates sessions nor
changes membership. -/
theorem c4_get_hit_miss_membership {V : Type} (m : StoreMap V)
    (id : String) (now : Int) :
    ((storeGet m id now).2.map Prod.fst = m.map Prod.fst)
    ∧ (∀ sess, goGet m id = some sess →
        (storeGet m id now).1 = some (Access sess now)
        ∧ (Access sess now).AccessedF = now)
    ∧ (goGet m id = none → storeGet m id now = (none, m)) := by
  refine ⟨?_, ?_, ?_⟩
  · unfold storeGet
    cases hg : goGet m id with
    | none => rfl
    | some sess =>
      exact keys_goSet_of_mem m id (Access sess now)
        (goGet_any m id sess hg)
  · intro sess hg
    unfold storeGet
    rw [hg]
    exact ⟨rfl, rfl⟩
  · intro hg
    unfold storeGet
    rw [hg]

/-- C4 witness: the `Get` theorem applied to the concrete store, on a
hit for "a" and a miss for "c". -/
theorem c4_get_hit_miss_membership_witness :
    (storeGet sampleStore "a" 7).1 = some (Access (sampleSess "a" 0 50) 7)
    ∧ storeGet sampleStore "c" 7 = (none, sampleStore) :=
  ⟨((c4_get_hit_miss_membership sampleStore "a" 7).2.1
      (sampleSess "a" 0 50) rfl).1,
   (c4_get_hit_miss_membership sampleStore "c" 7).2.2 rfl⟩

/-- C5: `Add(s)` followed by `Get(s.ID())` returns the very session that
was added (its access time refreshed to the instant of the `Get`, which
in Go mutates the same object); and on every store state reachable by the
public API every entry is keyed by its session's own id, so a non-nil
`Get(id)` returns a session whose `ID()` equals `id`. -/
theorem c5_roundtrip_and_id_keying (V : Type) :
    (∀ (m : StoreMap V) (s : SessionImpl V) (now : Int),
      (storeGet (storeAdd m s) (ID s) now).1 = some (Access s now))
    ∧ (∀ (ops : List (StoreOp V)) (id : String) (now : Int)
        (sess : SessionImpl V),
      (storeGet (runOps ops) id now).1 = some sess → ID sess = id) := by
  constructor
  · intro m s now
    show (storeGet (goSet m (ID s) s) (ID s) now).1 = some (Access s now)
    unfold storeGet
    rw [goGet_goSet_self]
  · intro ops id now sess h
    have hW := wellKeyed_runOps ops
    revert h
    unfold storeGet
    cases hg : goGet (runOps ops) id with
    | none =>
      intro h
      exact absurd h (by simp)
    | some q =>
      intro h
      have hq : q.IDF = id := wellKeyed_goGet _ hW id q hg
      have h2 : Access q now = sess := Option.some_inj.mp h
      rw [← h2]
      exact hq

/-- C5 witness: the round trip on the empty store with the concrete
session "a", and the keying consequence on the store built by adding that
session. -/
theorem c5_roundtrip_and_id_keying_witness :
    (storeGet (storeAdd ([] : StoreMap Nat) (sampleSess "a" 0 50)) "a" 5).1
      = some (Access (sampleSess "a" 0 50) 5)
    ∧ ID (Access (sampleSess "a" 0 50) 5) = "a" :=
  ⟨(c5_roundtrip_and_id_keying Nat).1 [] (sampleSess "a" 0 50) 5,
   (c5_roundtrip_and_id_keying Nat).2 [StoreOp.add (sampleSess "a" 0 50)]
     "a" 5 (Access (sampleSess "a" 0 50) 5) rfl⟩

/-- C6: `Remove(s)` deletes the entry keyed `s.ID()` and nothing else:
afterwards the key is absent and `Get(s.ID())` returns nil; removing
twice equals removing once; every other key is untouched; and removing
an absent session leaves the map exactly as it was (no-op, no error). -/
theorem c6_remove_idempotent_no_error {V : Type} (m : StoreMap V)
    (s : SessionImpl V) (now : Int) :
    goGet (storeRemove m s) (ID s) = none
    ∧ storeRemove (storeRemove m s) s = storeRemove m s
    ∧ (∀ k, k ≠ ID s → goGet (storeRemove m s) k = goGet m k)
    ∧ (goGet m (ID s) = none → storeRemove m s = m)
    ∧ (storeGet (storeRemove m s) (ID s) now).1 = none := by
  refine ⟨goGet_goDel_self m (ID s), goDel_idem m (ID s),
    fun k hk => goGet_goDel_ne m (ID s) k hk,
    fun h => goDel_eq_self m (ID s) h, ?_⟩
  show (storeGet (goDel m (ID s)) (ID s) now).1 = none
  unfold storeGet
  rw [goGet_goDel_self]

/-- C6 witness: the removal theorem applied to the concrete store and the
session "a" (other key "b" untouched), and to the empty store (removal of
an absent session is the identity). -/
theorem c6_remove_idempotent_no_error_witness :
    goGet (storeRemove sampleStore (sampleSess "a" 0 50)) "b"
      = goGet sampleStore "b"
    ∧ storeRemove ([] : StoreMap Nat) (sampleSess "a" 0 50) = [] :=
  ⟨(c6_remove_idempotent_no_error sampleStore (sampleSess "a" 0 50) 0).2.2.1
      "b" (by decide),
   (c6_remove_idempotent_no_error ([] : StoreMap Nat)
      (sampleSess "a" 0 50) 0).2.2.2.1 rfl⟩

/-- C7: after `SetAttr(name, value)` with a non-nil value, `Attr(name)`
returns that value, and keeps returning it across any further `SetAttr`
sequence that does not target `name`; a subsequent `SetAttr(name, nil)`
removes the name from the copy returned by `Attrs()` and strictly
decreases that copy's length. -/
theorem c7_setattr_attr_roundtrip {V : Type} (s : SessionImpl V)
    (name : String) (v : V) :
    Attr (SetAttr s name (some v)) name = some v
    ∧ (∀ ops : List (String × Option V), (∀ p ∈ ops, p.1 ≠ name) →
        Attr (applySetAttrs (SetAttr s name (some v)) ops) name = some v)
    ∧ ¬ name ∈ (Attrs (SetAttr (SetAttr s name (some v)) name none)).map
        Prod.fst
    ∧ (Attrs (SetAttr (SetAttr s name (some v)) name none)).length
        < (Attrs (SetAttr s name (some v))).length := by
  have h1 : Attr (SetAttr s name (some v)) name = some v := by
    show (goGet (goSet s.AttrsF name (some v)) name).join = some v
    rw [goGet_goSet_self]
    rfl
  refine ⟨h1, fun ops hops => ?_, ?_, ?_⟩
  · rw [attr_applySetAttrs_ne _ ops name hops]
    exact h1
  · exact not_mem_keys_goDel (goSet s.AttrsF name (some v)) name
  · show (goDel (goSet s.AttrsF name (some v)) name).length
      < (goSet s.AttrsF name (some v)).length
    rcases exists_key_of_goGet_some (goSet s.AttrsF name (some v)) name
      (some v) (goGet_goSet_self s.AttrsF name (some v)) with ⟨p, hp, hpk⟩
    exact List.length_filter_lt_length_iff_exists.mpr
      ⟨p, hp, by simp [hpk]⟩

/-- C7 witness: the attribute theorem applied to a concrete session, with
a concrete non-targeting `SetAttr` sequence. -/
theorem c7_setattr_attr_roundtrip_witness :
    Attr (applySetAttrs (SetAttr (sampleSess "a" 0 50) "x" (some 3))
      [("y", some 4)]) "x" = some 3 :=
  (c7_setattr_attr_roundtrip (sampleSess "a" 0 50) "x" 3).2.1
    [("y", some 4)] (by decide)

/-- C8: `Manager.Add` writes a cookie whose value is the session's id,
with the configured (or defaulted) name, path and max age, the secure
flag set exactly when insecure transport was not allowed, the http-only
flag always set, and then delegates to `store.Add`. -/
theorem c8_manager_add_cookie (V : Type) (o : CookieMngrOptions)
    (sess : SessionImpl V) (store : StoreMap V) :
    (managerAdd (NewCookieManagerOptions o) sess store).1.Value = ID sess
    ∧ (managerAdd (NewCookieManagerOptions o) sess store).1.Name
        = (if o.SessIDCookieName = "" then "sessid" else o.SessIDCookieName)
    ∧ (managerAdd (NewCookieManagerOptions o) sess store).1.Path
        = (if o.CookiePath = "" then "/" else o.CookiePath)
    ∧ (managerAdd (NewCookieManagerOptions o) sess store).1.MaxAge
        = (if o.CookieMaxAge = 0 then 30 * 24 * 60 * 60
           else durationSecondsTrunc o.CookieMaxAge)
    ∧ (managerAdd (NewCookieManagerOptions o) sess store).1.Secure
        = !o.AllowHTTP
    ∧ (managerAdd (NewCookieManagerOptions o) sess store).1.HttpOnly = true
    ∧ (managerAdd (NewCookieManagerOptions o) sess store).2
        = storeAdd store sess :=
  ⟨rfl, rfl, rfl, rfl, rfl, rfl, rfl⟩

/-- C9: `Get` has no timeout check: on a well-keyed store a session
already past its timeout at `now1` is still returned by `Get` (with its
accessed time refreshed to `now1`), and therefore survives the next
sweeper tick at any instant `now2` that is within the timeout of the
refreshed access time — eviction happens only on ticks, never during
`Get`. -/
theorem c9_get_revives_expired_session {V : Type} (m : StoreMap V)
    (id : String) (now1 : Int) (sess : SessionImpl V)
    (hW : WellKeyed m) (hN : NodupKeys m)
    (hGet : goGet m id = some sess) (hExp : expired now1 sess = true) :
    (storeGet m id now1).1 = some (Access sess now1)
    ∧ (∀ now2 : Int, now2 - now1 ≤ sess.TimeoutF →
        goGet (sessTick (storeGet m id now1).2 now2) id
          = some (Access sess now1)) := by
  have hfst : (storeGet m id now1).1 = some (Access sess now1) := by
    unfold storeGet
    rw [hGet]
  have hsnd : (storeGet m id now1).2 = goSet m id (Access sess now1) := by
    unfold storeGet
    rw [hGet]
  refine ⟨hfst, fun now2 hle => ?_⟩
  rw [hsnd]
  have hsid : sess.IDF = id := wellKeyed_goGet m hW id sess hGet
  have hW2 : WellKeyed (goSet m id (Access sess now1)) :=
    wellKeyed_goSet m id (Access sess now1) hW hsid
  have hN2 : NodupKeys (goSet m id (Access sess now1)) :=
    nodupKeys_goSet m id (Access sess now1) hN
  rw [sessTick_eq_filter _ now2 hW2 hN2]
  have hmem : (id, Access sess now1) ∈ goSet m id (Access sess now1) :=
    (goGet_eq_some_iff_mem _ hN2 id (Access sess now1)).mp
      (goGet_goSet_self m id (Access sess now1))
  refine goGet_filter _ hN2 _ id (Access sess now1) hmem ?_
  have hnotexp : expired now2 (Access sess now1) = false := by
    unfold expired Access
    simp only [decide_eq_false_iff_not, not_lt]
    exact hle
  rw [hnotexp]
  rfl

/-- C9 witness: in the concrete store, session "a" (accessed 0, timeout
50) is already expired at instant 100, yet `Get` returns it, and after
the refresh it survives a tick at instant 120. -/
theorem c9_get_revives_expired_session_witness :
    goGet (sessTick (storeGet sampleStore "a" 100).2 120) "a"
      = some (Access (sampleSess "a" 0 50) 100) :=
  (c9_get_revives_expired_session sampleStore "a" 100 (sampleSess "a" 0 50)
    (by decide) (by decide) rfl (by decide)).2 120 (by decide)

/-- C10: a non-zero positive `CookieMaxAge` strictly below one second
(10^9 nanoseconds) is truncated toward zero to a cookie max age of 0
whole seconds — a browser-session cookie, neither the 30-day default nor
a positive age — while `CookieMaxAge = 0` selects the 30-day default. -/
theorem c10_subsecond_maxage_truncates_to_zero (d : Int) (h1 : 0 < d)
    (h2 : d < 1000000000) :
    (NewCookieManagerOptions { CookieMaxAge := d }).cookieMaxAgeSec = 0
    ∧ (NewCookieManagerOptions { CookieMaxAge := d }).cookieMaxAgeSec
        ≠ 30 * 24 * 60 * 60
    ∧ ¬ 0 < (NewCookieManagerOptions { CookieMaxAge := d }).cookieMaxAgeSec
    ∧ (NewCookieManagerOptions { CookieMaxAge := 0 }).cookieMaxAgeSec
        = 30 * 24 * 60 * 60 := by
  have hd0 : d ≠ 0 := ne_of_gt h1
  have hmain :
      (NewCookieManagerOptions { CookieMaxAge := d }).cookieMaxAgeSec = 0 := by
    show (if d = 0 then ((30 : Int) * 24 * 60 * 60)
      else durationSecondsTrunc d) = 0
    rw [if_neg hd0]
    unfold durationSecondsTrunc
    cases d with
    | ofNat n =>
      show Int.ofNat (n / 1000000000) = 0
      rw [Int.ofNat_eq_coe] at h2
      have hn : n < 1000000000 := by exact_mod_cast h2
      rw [Nat.div_eq_of_lt hn]
      rfl
    | negSucc n => exact absurd h1 (lt_asymm (Int.negSucc_lt_zero n))
  refine ⟨hmain, ?_, ?_, rfl⟩
  · rw [hmain]
    decide
  · rw [hmain]
    decide

/-- C10 witness: the truncation theorem at the concrete half-second
duration 500000000 ns. -/
theorem c10_subsecond_maxage_truncates_to_zero_witness :
    (NewCookieManagerOptions { CookieMaxAge := 500000000 }).cookieMaxAgeSec
      = 0 :=
  (c10_subsecond_maxage_truncates_to_zero 500000000 (by decide)
    (by decide)).1

end SessionModel
